import Mathlib

/-!
Shallow embedding of the document chunking engine of scripts/prepdocs.py
(the functions split_text and find_page, lines 244-302), together with
theorems settling the specified properties of the engine.

Text is modelled as List Char, absolute positions as Nat.  The module
constants MAX_SECTION_LENGTH, SENTENCE_SEARCH_LIMIT, SECTION_OVERLAP are
gathered in a configuration record so that properties quantified over the
tunable constants can be stated; defaultCfg is the configuration of the
source file.  The generator split_text is modelled with an explicit fuel
argument: the value none means the while loop did not finish within the
given fuel (the loop is not always terminating, as proved below).
-/

namespace PrepDocs

/-- The three module constants of prepdocs.py, as one configuration value. -/
structure SplitCfg where
  maxSectionLength : Nat
  sentenceSearchLimit : Nat
  sectionOverlap : Nat
deriving DecidableEq

/-- MAX_SECTION_LENGTH = 1000 in prepdocs.py. -/
def MAX_SECTION_LENGTH : Nat := 1000

/-- SENTENCE_SEARCH_LIMIT = 100 in prepdocs.py. -/
def SENTENCE_SEARCH_LIMIT : Nat := 100

/-- SECTION_OVERLAP = 100 in prepdocs.py. -/
def SECTION_OVERLAP : Nat := 100

/-- The configuration actually used by prepdocs.py. -/
def defaultCfg : SplitCfg := ⟨MAX_SECTION_LENGTH, SENTENCE_SEARCH_LIMIT, SECTION_OVERLAP⟩

/-- SENTENCE_ENDINGS of split_text. -/
def SENTENCE_ENDINGS : List Char := ['.', '!', '?']

/-- WORDS_BREAKS of split_text. -/
def WORDS_BREAKS : List Char := [',', ';', ':', ' ', '(', ')', '[', ']', '{', '}', '\t', '\n']

/-- all_text[i] in SENTENCE_ENDINGS. -/
def isSentenceEnding (c : Char) : Prop := c ∈ SENTENCE_ENDINGS

/-- all_text[i] in WORDS_BREAKS. -/
def isWordBreak (c : Char) : Prop := c ∈ WORDS_BREAKS

instance (c : Char) : Decidable (isSentenceEnding c) := by
  unfold isSentenceEnding; infer_instance

instance (c : Char) : Decidable (isWordBreak c) := by
  unfold isWordBreak; infer_instance

/-- One (page_num, offset, page_text) triple of the page map. -/
structure PageEntry where
  pageIndex : Nat
  startOffset : Nat
  text : List Char
deriving DecidableEq

/-- Dummy entry used for out-of-range page map indexing. -/
def defaultEntry : PageEntry := ⟨0, 0, []⟩

/-- startOffset of the page map entry at index i. -/
def offAt (pm : List PageEntry) (i : Nat) : Nat := (pm.getD i defaultEntry).startOffset

/-- text of the page map entry at index i. -/
def txtAt (pm : List PageEntry) (i : Nat) : List Char := (pm.getD i defaultEntry).text

/-- The loop of find_page: i indexes the head of the remaining suffix of the
page map; for i in range(l-1), return the first i whose offset interval
contains the given offset, else l-1. -/
def findPageAux (offset : Nat) : List PageEntry → Nat → Nat
  | p1 :: p2 :: rest, i =>
    if p1.startOffset ≤ offset ∧ offset < p2.startOffset then i
    else findPageAux offset (p2 :: rest) (i + 1)
  | [_], i => i
  | [], i => i - 1

/-- find_page of split_text (prepdocs.py lines 249-254). -/
def find_page (pm : List PageEntry) (offset : Nat) : Nat := findPageAux offset pm 0

/-- all_text = "".join(p[2] for p in page_map). -/
def allText (pm : List PageEntry) : List Char := (pm.map PageEntry.text).flatten

/-- The forward while loop of end selection (lines 268-271).  rest is the
suffix of the text starting at position e, so rest = [] exactly when
end < length fails. -/
def scanEnd (cfg : SplitCfg) (s : Nat) : List Char → Nat → Int → Nat × Int
  | [], e, lastWord => (e, lastWord)
  | c :: rest, e, lastWord =>
    if e - s - cfg.maxSectionLength < cfg.sentenceSearchLimit ∧ ¬ isSentenceEnding c then
      scanEnd cfg s rest (e + 1) (if isWordBreak c then (e : Int) else lastWord)
    else (e, lastWord)

/-- The backward while loop of start selection (lines 279-282); the
condition start > 0 is the match on s. -/
def scanStart (cfg : SplitCfg) (t : List Char) (e : Nat) : Nat → Int → Nat × Int
  | 0, lastWord => (0, lastWord)
  | s + 1, lastWord =>
    if e - cfg.maxSectionLength - 2 * cfg.sentenceSearchLimit < s + 1 ∧
        ¬ isSentenceEnding (t.getD (s + 1) 'a') then
      scanStart cfg t e s (if isWordBreak (t.getD (s + 1) 'a') then ((s : Int) + 1) else lastWord)
    else (s + 1, lastWord)

/-- The boundary inclusion step: cursor += 1 when cursor < length resp.
cursor > 0 (lines 274-275 and 285-286). -/
def bump (bound q : Nat) : Nat := if q < bound then q + 1 else q

/-- End selection before boundary inclusion (lines 261-273): tentative cut
at start + MAX_SECTION_LENGTH, clamp to length, else forward sentence scan
with word-break fallback. -/
def findEnd1 (cfg : SplitCfg) (t : List Char) (s : Nat) : Nat :=
  if t.length < s + cfg.maxSectionLength then t.length
  else
    match scanEnd cfg s (t.drop (s + cfg.maxSectionLength)) (s + cfg.maxSectionLength) (-1) with
    | (e1, lastWord) =>
      if e1 < t.length ∧ ¬ isSentenceEnding (t.getD e1 'a') ∧ 0 < lastWord then
        lastWord.toNat
      else e1

/-- End selection of one iteration (lines 261-275), including `end += 1`. -/
def findEnd (cfg : SplitCfg) (t : List Char) (s : Nat) : Nat :=
  bump t.length (findEnd1 cfg t s)

/-- The start += 1 step when start > 0 (line 285-286). -/
def bumpPos (q : Nat) : Nat := if 0 < q then q + 1 else q

/-- Start selection of one iteration (lines 278-286): backward sentence scan
with word-break fallback, then start += 1 when start > 0. -/
def findStart (cfg : SplitCfg) (t : List Char) (e : Nat) (s : Nat) : Nat :=
  match scanStart cfg t e s (-1) with
  | (p, lastWord) =>
    bumpPos (if ¬ isSentenceEnding (t.getD p 'a') ∧ 0 < lastWord then lastWord.toNat else p)

/-- pat occurs in t at index i. -/
def occursAt (t pat : List Char) (i : Nat) : Prop := (t.drop i).take pat.length = pat

instance (t pat : List Char) (i : Nat) : Decidable (occursAt t pat i) := by
  unfold occursAt; infer_instance

/-- Python str.rfind: the largest index at which pat occurs in t, or -1. -/
def rfind (t pat : List Char) : Int :=
  ((List.range (t.length + 1)).filter (fun i => decide (occursAt t pat i))).foldl
    (fun a i => max a (i : Int)) (-1)

/-- The literal "<table". -/
def TABLE_OPEN : List Char := ['<', 't', 'a', 'b', 'l', 'e']

/-- The literal "</table". -/
def TABLE_CLOSE : List Char := ['<', '/', 't', 'a', 'b', 'l', 'e']

/-- all_text[start:end]. -/
def sectionText (t : List Char) (a e : Nat) : List Char := (t.drop a).take (e - a)

/-- Result of one iteration of the split_text while loop: the emitted window
[secStart, secEnd) and the cursor value for the next iteration. -/
structure StepOut where
  secStart : Nat
  secEnd : Nat
  next : Nat
deriving DecidableEq

/-- The condition of the table-continuity rule (line 292): the last
occurrence of "<table" in the emitted section text lies beyond
2 * SENTENCE_SEARCH_LIMIT and after the last occurrence of "</table". -/
def tableContinuation (cfg : SplitCfg) (sec : List Char) : Prop :=
  2 * (cfg.sentenceSearchLimit : Int) < rfind sec TABLE_OPEN ∧
  rfind sec TABLE_CLOSE < rfind sec TABLE_OPEN

instance (cfg : SplitCfg) (sec : List Char) : Decidable (tableContinuation cfg sec) := by
  unfold tableContinuation; infer_instance

/-- One iteration of the split_text while loop at cursor s (lines 261-299):
end selection, start selection, section emission, table-continuity rule. -/
def step (cfg : SplitCfg) (t : List Char) (s : Nat) : StepOut :=
  let e := findEnd cfg t s
  let a := findStart cfg t e s
  let sec := sectionText t a e
  let nxt :=
    if tableContinuation cfg sec then
      min (e - cfg.sectionOverlap) (a + (rfind sec TABLE_OPEN).toNat)
    else e - cfg.sectionOverlap
  ⟨a, e, nxt⟩

/-- One emitted section, keeping the cursor value at the top of the
iteration, the emitted window and the attributed page. -/
structure Sec where
  cur : Nat
  secStart : Nat
  secEnd : Nat
  page : Nat
deriving DecidableEq

/-- Dummy section used with getD. -/
def dSec : Sec := ⟨0, 0, 0, 0⟩

/-- The split_text loop (lines 258-302) with explicit fuel: s is the cursor,
e the value of the Python variable end (initially length, thereafter the
previous iteration end, consulted by the final-remainder check).  none
means the loop did not finish within fuel. -/
def splitTextAux (cfg : SplitCfg) (pm : List PageEntry) (t : List Char) :
    Nat → Nat → Nat → Option (List Sec)
  | 0, s, e =>
    if s + cfg.sectionOverlap < t.length then none
    else some (if s + cfg.sectionOverlap < e then [⟨s, s, e, find_page pm s⟩] else [])
  | f + 1, s, e =>
    if s + cfg.sectionOverlap < t.length then
      (splitTextAux cfg pm t f (step cfg t s).next (step cfg t s).secEnd).map
        (fun r => ⟨s, (step cfg t s).secStart, (step cfg t s).secEnd,
          find_page pm (step cfg t s).secStart⟩ :: r)
    else some (if s + cfg.sectionOverlap < e then [⟨s, s, e, find_page pm s⟩] else [])

/-- split_text (lines 244-302): the sequence of (section_text, page) pairs. -/
def split_text (cfg : SplitCfg) (pm : List PageEntry) (fuel : Nat) :
    Option (List (List Char × Nat)) :=
  let t := allText pm
  (splitTextAux cfg pm t fuel 0 t.length).map
    (List.map fun w => (sectionText t w.secStart w.secEnd, w.page))

/-- The PageEntry invariant of the specification: non-empty map, first
offset 0, contiguous offsets, strictly increasing offsets. -/
def PageMapInv (pm : List PageEntry) : Prop :=
  pm ≠ [] ∧ offAt pm 0 = 0 ∧
  (∀ i < pm.length - 1, offAt pm (i + 1) = offAt pm i + (txtAt pm i).length) ∧
  (∀ i < pm.length - 1, offAt pm i < offAt pm (i + 1))

instance (pm : List PageEntry) : Decidable (PageMapInv pm) := by
  unfold PageMapInv; infer_instance

/-- The window union of a run covers every offset below len. -/
def covers (L : List Sec) (len : Nat) : Prop :=
  ∀ o < len, ∃ w ∈ L, w.secStart ≤ o ∧ o < w.secEnd

instance (L : List Sec) (len : Nat) : Decidable (covers L len) := by
  unfold covers; infer_instance

theorem scanEnd_le (cfg : SplitCfg) (s : Nat) :
    ∀ (rest : List Char) (e : Nat) (lw : Int), e ≤ (scanEnd cfg s rest e lw).1 := by
  intro rest
  induction rest with
  | nil => intro e lw; simp [scanEnd]
  | cons c rest ih =>
    intro e lw
    rw [scanEnd]
    split
    · exact le_trans (Nat.le_succ e) (ih _ _)
    · exact le_refl _

theorem scanEnd_bound (cfg : SplitCfg) (s : Nat) :
    ∀ (rest : List Char) (e : Nat) (lw : Int),
      e ≤ s + cfg.maxSectionLength + cfg.sentenceSearchLimit →
      (scanEnd cfg s rest e lw).1 ≤ s + cfg.maxSectionLength + cfg.sentenceSearchLimit := by
  intro rest
  induction rest with
  | nil => intro e lw he; simpa [scanEnd] using he
  | cons c rest ih =>
    intro e lw he
    rw [scanEnd]
    split
    · rename_i h
      exact ih (e + 1) (if isWordBreak c then (e : Int) else lw) (by omega)
    · exact he

theorem scanEnd_len (cfg : SplitCfg) (s : Nat) :
    ∀ (rest : List Char) (e : Nat) (lw : Int),
      (scanEnd cfg s rest e lw).1 ≤ e + rest.length := by
  intro rest
  induction rest with
  | nil => intro e lw; simp [scanEnd]
  | cons c rest ih =>
    intro e lw
    rw [scanEnd]
    split
    · have := ih (e + 1) (if isWordBreak c then (e : Int) else lw)
      simp only [List.length_cons]
      omega
    · simp

theorem scanEnd_lw (cfg : SplitCfg) (s : Nat) :
    ∀ (rest : List Char) (e : Nat) (lw : Int),
      (scanEnd cfg s rest e lw).2 = lw ∨
        ((e : Int) ≤ (scanEnd cfg s rest e lw).2 ∧
          (scanEnd cfg s rest e lw).2 + 1 ≤ ((scanEnd cfg s rest e lw).1 : Int)) := by
  intro rest
  induction rest with
  | nil => intro e lw; simp [scanEnd]
  | cons c rest ih =>
    intro e lw
    rw [scanEnd]
    split
    · by_cases hwb : isWordBreak c
      · rw [if_pos hwb]
        have hle : e + 1 ≤ (scanEnd cfg s rest (e + 1) (e : Int)).1 :=
          scanEnd_le cfg s rest (e + 1) _
        rcases ih (e + 1) (e : Int) with h | h
        · right; omega
        · right; omega
      · rw [if_neg hwb]
        rcases ih (e + 1) lw with h | h
        · left; exact h
        · right; omega
    · left; rfl

theorem scanStart_le (cfg : SplitCfg) (t : List Char) (e : Nat) :
    ∀ (s : Nat) (lw : Int), (scanStart cfg t e s lw).1 ≤ s := by
  intro s
  induction s with
  | zero => intro lw; simp [scanStart]
  | succ v ih =>
    intro lw
    rw [scanStart]
    split
    · exact le_trans (ih _) (Nat.le_succ v)
    · exact le_refl _

theorem scanStart_ge (cfg : SplitCfg) (t : List Char) (e : Nat) :
    ∀ (s : Nat) (lw : Int),
      (scanStart cfg t e s lw).1 = s ∨
        e - cfg.maxSectionLength - 2 * cfg.sentenceSearchLimit ≤ (scanStart cfg t e s lw).1 := by
  intro s
  induction s with
  | zero => intro lw; left; simp [scanStart]
  | succ v ih =>
    intro lw
    rw [scanStart]
    split
    · rename_i h
      right
      by_cases hwb : isWordBreak (t.getD (v + 1) 'a')
      · rw [if_pos hwb]
        rcases ih ((v : Int) + 1) with h1 | h1 <;> omega
      · rw [if_neg hwb]
        rcases ih lw with h1 | h1 <;> omega
    · left; rfl

theorem scanStart_lw (cfg : SplitCfg) (t : List Char) (e : Nat) :
    ∀ (s : Nat) (lw : Int),
      (scanStart cfg t e s lw).2 = lw ∨
        (0 < (scanStart cfg t e s lw).2 ∧ (scanStart cfg t e s lw).2 ≤ (s : Int) ∧
          ((scanStart cfg t e s lw).1 : Int) < (scanStart cfg t e s lw).2) := by
  intro s
  induction s with
  | zero => intro lw; left; simp [scanStart]
  | succ v ih =>
    intro lw
    rw [scanStart]
    split
    · by_cases hwb : isWordBreak (t.getD (v + 1) 'a')
      · rw [if_pos hwb]
        have hle : (scanStart cfg t e v ((v : Int) + 1)).1 ≤ v := scanStart_le cfg t e v _
        rcases ih ((v : Int) + 1) with h | h
        · right; omega
        · right; omega
      · rw [if_neg hwb]
        rcases ih lw with h | h
        · left; exact h
        · right; omega
    · left; rfl

theorem findEnd1_facts (cfg : SplitCfg) (t : List Char) (s : Nat) :
    findEnd1 cfg t s ≤ t.length ∧
    ((t.length < s + cfg.maxSectionLength ∧ findEnd1 cfg t s = t.length) ∨
      (s + cfg.maxSectionLength ≤ findEnd1 cfg t s ∧
        findEnd1 cfg t s ≤ s + cfg.maxSectionLength + cfg.sentenceSearchLimit)) := by
  rw [findEnd1]
  split
  · rename_i hlen
    exact ⟨le_refl _, Or.inl ⟨hlen, rfl⟩⟩
  · rename_i hlen
    rcases hr : scanEnd cfg s (t.drop (s + cfg.maxSectionLength)) (s + cfg.maxSectionLength) (-1)
      with ⟨e1, lw⟩
    have h1 : s + cfg.maxSectionLength ≤ e1 := by
      have := scanEnd_le cfg s (t.drop (s + cfg.maxSectionLength)) (s + cfg.maxSectionLength) (-1)
      rw [hr] at this; exact this
    have h2 : e1 ≤ s + cfg.maxSectionLength + cfg.sentenceSearchLimit := by
      have := scanEnd_bound cfg s (t.drop (s + cfg.maxSectionLength)) (s + cfg.maxSectionLength)
        (-1) (by omega)
      rw [hr] at this; exact this
    have h3 : e1 ≤ t.length := by
      have := scanEnd_len cfg s (t.drop (s + cfg.maxSectionLength)) (s + cfg.maxSectionLength) (-1)
      rw [hr, List.length_drop] at this
      omega
    have h4 : lw = -1 ∨ ((s + cfg.maxSectionLength : Int) ≤ lw ∧ lw + 1 ≤ (e1 : Int)) := by
      have := scanEnd_lw cfg s (t.drop (s + cfg.maxSectionLength)) (s + cfg.maxSectionLength) (-1)
      rw [hr] at this; exact_mod_cast this
    simp only []
    split
    · rename_i hcond
      have hlw : (s + cfg.maxSectionLength : Int) ≤ lw ∧ lw + 1 ≤ (e1 : Int) := by
        rcases h4 with h | h
        · rw [h] at hcond; omega
        · exact h
      refine ⟨by omega, Or.inr ⟨by omega, by omega⟩⟩
    · exact ⟨h3, Or.inr ⟨h1, h2⟩⟩

theorem findEnd_le_len (cfg : SplitCfg) (t : List Char) (s : Nat) :
    findEnd cfg t s ≤ t.length := by
  have h := (findEnd1_facts cfg t s).1
  rw [findEnd, bump]
  split <;> omega

theorem findEnd_upper (cfg : SplitCfg) (t : List Char) (s : Nat) :
    findEnd cfg t s ≤ s + cfg.maxSectionLength + cfg.sentenceSearchLimit + 1 := by
  have h := findEnd1_facts cfg t s
  rw [findEnd, bump]
  split <;> omega

theorem findEnd_lower (cfg : SplitCfg) (t : List Char) (s : Nat) :
    findEnd cfg t s = t.length ∨ s + cfg.maxSectionLength + 1 ≤ findEnd cfg t s := by
  have h := findEnd1_facts cfg t s
  rw [findEnd, bump]
  split <;> omega

theorem findStart_le (cfg : SplitCfg) (t : List Char) (e : Nat) (s : Nat) :
    findStart cfg t e s ≤ s + 1 := by
  rw [findStart]
  rcases hr : scanStart cfg t e s (-1) with ⟨p, lw⟩
  have h1 : p ≤ s := by
    have := scanStart_le cfg t e s (-1)
    rw [hr] at this; exact this
  have h2 : lw = -1 ∨ (0 < lw ∧ lw ≤ (s : Int) ∧ (p : Int) < lw) := by
    have := scanStart_lw cfg t e s (-1)
    rw [hr] at this; exact this
  simp only [bumpPos]
  split
  · rename_i hcond
    have hlw : lw.toNat ≤ s := by
      rcases h2 with h | h
      · rw [h] at hcond; omega
      · omega
    split <;> omega
  · split <;> omega

theorem findStart_ge (cfg : SplitCfg) (t : List Char) (e : Nat) (s : Nat) :
    s ≤ findStart cfg t e s ∨
      e - cfg.maxSectionLength - 2 * cfg.sentenceSearchLimit ≤ findStart cfg t e s := by
  rw [findStart]
  rcases hr : scanStart cfg t e s (-1) with ⟨p, lw⟩
  have h1 : p = s ∨ e - cfg.maxSectionLength - 2 * cfg.sentenceSearchLimit ≤ p := by
    have := scanStart_ge cfg t e s (-1)
    rw [hr] at this; exact this
  have h2 : lw = -1 ∨ (0 < lw ∧ lw ≤ (s : Int) ∧ (p : Int) < lw) := by
    have := scanStart_lw cfg t e s (-1)
    rw [hr] at this; exact this
  simp only [bumpPos]
  split
  · rename_i hcond
    have hlw : 0 < lw ∧ (p : Int) < lw := by
      rcases h2 with h | h
      · rw [h] at hcond; omega
      · exact ⟨h.1, h.2.2⟩
    have hp : p < lw.toNat := by omega
    rcases h1 with h | h
    · left; split <;> omega
    · right; split <;> omega
  · rcases h1 with h | h
    · left; split <;> omega
    · right; split <;> omega

theorem findStart_zero (cfg : SplitCfg) (t : List Char) (e : Nat) :
    findStart cfg t e 0 = 0 := by
  rw [findStart]
  have h0 : scanStart cfg t e 0 (-1) = (0, -1) := by rw [scanStart]
  rw [h0]
  have : ¬ (0 : Int) < -1 := by decide
  simp [bumpPos, this]

theorem step_secEnd (cfg : SplitCfg) (t : List Char) (s : Nat) :
    (step cfg t s).secEnd = findEnd cfg t s := rfl

theorem step_secStart (cfg : SplitCfg) (t : List Char) (s : Nat) :
    (step cfg t s).secStart = findStart cfg t (findEnd cfg t s) s := rfl

theorem step_next_eq (cfg : SplitCfg) (t : List Char) (s : Nat) :
    (step cfg t s).next =
      if tableContinuation cfg
          (sectionText t (findStart cfg t (findEnd cfg t s) s) (findEnd cfg t s)) then
        min (findEnd cfg t s - cfg.sectionOverlap)
          (findStart cfg t (findEnd cfg t s) s +
            (rfind (sectionText t (findStart cfg t (findEnd cfg t s) s) (findEnd cfg t s))
              TABLE_OPEN).toNat)
      else findEnd cfg t s - cfg.sectionOverlap := by
  rw [step]

theorem step_next_le (cfg : SplitCfg) (t : List Char) (s : Nat) :
    (step cfg t s).next ≤ (step cfg t s).secEnd - cfg.sectionOverlap := by
  rw [step_next_eq, step_secEnd]
  split
  · exact min_le_left _ _
  · exact le_refl _

theorem step_next_ge (cfg : SplitCfg) (t : List Char) (s : Nat)
    (hOV : cfg.sectionOverlap ≤ cfg.maxSectionLength) :
    (step cfg t s).secEnd - cfg.maxSectionLength ≤ (step cfg t s).next := by
  have hup : findEnd cfg t s ≤ s + cfg.maxSectionLength + cfg.sentenceSearchLimit + 1 :=
    findEnd_upper cfg t s
  have hgesp := findStart_ge cfg t (findEnd cfg t s) s
  rw [step_next_eq, step_secEnd]
  split
  · rename_i hc
    have hlts : 2 * cfg.sentenceSearchLimit + 1 ≤ (rfind
        (sectionText t (findStart cfg t (findEnd cfg t s) s) (findEnd cfg t s))
        TABLE_OPEN).toNat := by
      have := hc.1
      omega
    rcases hgesp with h | h <;> omega
  · omega

theorem step_window (cfg : SplitCfg) (t : List Char) (s : Nat)
    (h1 : 1 ≤ cfg.sectionOverlap) (h2 : 1 ≤ cfg.maxSectionLength)
    (hs : s + cfg.sectionOverlap < t.length) :
    (step cfg t s).secStart < (step cfg t s).secEnd := by
  have hle : findStart cfg t (findEnd cfg t s) s ≤ s + 1 := findStart_le cfg t _ s
  have hlow := findEnd_lower cfg t s
  rw [step_secStart, step_secEnd]
  rcases hlow with h | h <;> omega

theorem aux_exit (cfg : SplitCfg) (pm : List PageEntry) (t : List Char) (f s e : Nat)
    (h : ¬ s + cfg.sectionOverlap < t.length) :
    splitTextAux cfg pm t f s e =
      some (if s + cfg.sectionOverlap < e then [⟨s, s, e, find_page pm s⟩] else []) := by
  cases f <;> simp only [splitTextAux, if_neg h]

theorem aux_step (cfg : SplitCfg) (pm : List PageEntry) (t : List Char) (f s e : Nat)
    (h : s + cfg.sectionOverlap < t.length) :
    splitTextAux cfg pm t (f + 1) s e =
      (splitTextAux cfg pm t f (step cfg t s).next (step cfg t s).secEnd).map
        (fun r => ⟨s, (step cfg t s).secStart, (step cfg t s).secEnd,
          find_page pm (step cfg t s).secStart⟩ :: r) := by
  simp only [splitTextAux, if_pos h]

theorem aux_mono (cfg : SplitCfg) (pm : List PageEntry) (t : List Char) :
    ∀ (f s e : Nat) (L : List Sec),
      splitTextAux cfg pm t f s e = some L → splitTextAux cfg pm t (f + 1) s e = some L := by
  intro f
  induction f with
  | zero =>
    intro s e L h
    by_cases hc : s + cfg.sectionOverlap < t.length
    · rw [splitTextAux, if_pos hc] at h
      exact absurd h (by simp)
    · rw [aux_exit cfg pm t 0 s e hc] at h
      rw [aux_exit cfg pm t 1 s e hc]
      exact h
  | succ f ih =>
    intro s e L h
    by_cases hc : s + cfg.sectionOverlap < t.length
    · rw [aux_step cfg pm t f s e hc] at h
      rcases hx : splitTextAux cfg pm t f (step cfg t s).next (step cfg t s).secEnd with _ | r
      · rw [hx] at h; exact absurd h (by simp)
      · rw [hx] at h
        rw [aux_step cfg pm t (f + 1) s e hc, ih _ _ _ hx]
        exact h
    · rw [aux_exit cfg pm t (f + 1) s e hc] at h
      rw [aux_exit cfg pm t (f + 2) s e hc]
      exact h

theorem aux_mono_le (cfg : SplitCfg) (pm : List PageEntry) (t : List Char)
    {f f' s e : Nat} {L : List Sec} (hff : f ≤ f')
    (h : splitTextAux cfg pm t f s e = some L) : splitTextAux cfg pm t f' s e = some L := by
  induction f' with
  | zero =>
    have : f = 0 := by omega
    subst this; exact h
  | succ f' ih =>
    rcases Nat.lt_or_ge f (f' + 1) with hlt | hge
    · exact aux_mono cfg pm t f' s e L (ih (by omega))
    · have : f = f' + 1 := by omega
      subst this; exact h

/-- The consecution invariant of a run of the loop: each emitted entry
records the cursor it was produced at, its window is the step window of
that cursor, and the following entry starts at the step next cursor. -/
def ChainFrom (cfg : SplitCfg) (t : List Char) : Nat → List Sec → Prop
  | _, [] => True
  | s, x :: r =>
    x.cur = s ∧ s + cfg.sectionOverlap < t.length ∧
    x.secStart = (step cfg t s).secStart ∧ x.secEnd = (step cfg t s).secEnd ∧
    ChainFrom cfg t (step cfg t s).next r

theorem chain_of_aux (cfg : SplitCfg) (pm : List PageEntry) (t : List Char) :
    ∀ (f s e : Nat) (L : List Sec), e ≤ t.length →
      splitTextAux cfg pm t f s e = some L → ChainFrom cfg t s L := by
  intro f
  induction f with
  | zero =>
    intro s e L he h
    by_cases hc : s + cfg.sectionOverlap < t.length
    · rw [splitTextAux, if_pos hc] at h
      exact absurd h (by simp)
    · rw [aux_exit cfg pm t 0 s e hc] at h
      by_cases hfin : s + cfg.sectionOverlap < e
      · omega
      · rw [if_neg hfin] at h
        injection h with h
        rw [← h]
        trivial
  | succ f ih =>
    intro s e L he h
    by_cases hc : s + cfg.sectionOverlap < t.length
    · rw [aux_step cfg pm t f s e hc] at h
      rcases hx : splitTextAux cfg pm t f (step cfg t s).next (step cfg t s).secEnd with _ | r
      · rw [hx] at h; exact absurd h (by simp)
      · rw [hx] at h
        injection h with h
        rw [← h]
        refine ⟨rfl, hc, rfl, rfl, ?_⟩
        exact ih (step cfg t s).next (step cfg t s).secEnd r
          (by rw [step_secEnd]; exact findEnd_le_len cfg t s) hx
    · rw [aux_exit cfg pm t (f + 1) s e hc] at h
      by_cases hfin : s + cfg.sectionOverlap < e
      · omega
      · rw [if_neg hfin] at h
        injection h with h
        rw [← h]
        trivial

theorem chain_all (cfg : SplitCfg) (t : List Char) :
    ∀ (L : List Sec) (s : Nat), ChainFrom cfg t s L →
      ∀ w ∈ L, w.cur + cfg.sectionOverlap < t.length ∧
        w.secStart = (step cfg t w.cur).secStart ∧ w.secEnd = (step cfg t w.cur).secEnd := by
  intro L
  induction L with
  | nil => intro s _ w hw; simp at hw
  | cons x r ih =>
    intro s hch w hw
    rcases hch with ⟨hcur, hc, hs, he, hrest⟩
    rcases List.mem_cons.mp hw with h | h
    · subst h
      rw [hcur]
      exact ⟨hc, hs, he⟩
    · exact ih (step cfg t s).next hrest w h

theorem chain_consec (cfg : SplitCfg) (t : List Char) :
    ∀ (L : List Sec) (s : Nat) (k : Nat), ChainFrom cfg t s L → k + 1 < L.length →
      ((L.getD k dSec).cur + cfg.sectionOverlap < t.length ∧
        (L.getD k dSec).secStart = (step cfg t (L.getD k dSec).cur).secStart ∧
        (L.getD k dSec).secEnd = (step cfg t (L.getD k dSec).cur).secEnd ∧
        (L.getD (k + 1) dSec).cur = (step cfg t (L.getD k dSec).cur).next) := by
  intro L
  induction L with
  | nil => intro s k _ hk; simp at hk
  | cons x r ih =>
    intro s k hch hk
    rcases hch with ⟨hcur, hc, hs, he, hrest⟩
    cases k with
    | zero =>
      cases r with
      | nil => simp at hk
      | cons y r' =>
        rcases hrest with ⟨hycur, _⟩
        subst hcur
        simp only [List.getD_cons_zero, List.getD_cons_succ]
        exact ⟨hc, hs, he, hycur⟩
    | succ k =>
      have hk' : k + 1 < r.length := by simpa using hk
      have := ih (step cfg t s).next k hrest hk'
      simpa using this

theorem cover_aux (cfg : SplitCfg) (pm : List PageEntry) (t : List Char)
    (hOV : 1 ≤ cfg.sectionOverlap) (hlen : cfg.sectionOverlap < t.length) :
    ∀ (f s e : Nat) (L : List Sec), e ≤ t.length → s + cfg.sectionOverlap < t.length →
      splitTextAux cfg pm t f s e = some L →
      L ≠ [] ∧ (L.getD 0 dSec).secStart ≤ s + 1 ∧ (s = 0 → (L.getD 0 dSec).secStart = 0) ∧
        ∀ o, (L.getD 0 dSec).secStart ≤ o → o < t.length →
          ∃ w ∈ L, w.secStart ≤ o ∧ o < w.secEnd := by
  intro f
  induction f with
  | zero =>
    intro s e L he hs h
    rw [splitTextAux, if_pos hs] at h
    exact absurd h (by simp)
  | succ f ih =>
    intro s e L he hs h
    rw [aux_step cfg pm t f s e hs] at h
    have ha1 : (step cfg t s).secStart ≤ s + 1 := by
      rw [step_secStart]; exact findStart_le cfg t _ s
    have ha0 : s = 0 → (step cfg t s).secStart = 0 := by
      intro h0
      rw [step_secStart, h0, findStart_zero]
    have heL : (step cfg t s).secEnd ≤ t.length := by
      rw [step_secEnd]; exact findEnd_le_len cfg t s
    have helow : (step cfg t s).secEnd = t.length ∨
        s + cfg.maxSectionLength + 1 ≤ (step cfg t s).secEnd := by
      rw [step_secEnd]; exact findEnd_lower cfg t s
    have hnle : (step cfg t s).next ≤ (step cfg t s).secEnd - cfg.sectionOverlap :=
      step_next_le cfg t s
    rcases hx : splitTextAux cfg pm t f (step cfg t s).next (step cfg t s).secEnd with _ | r
    · rw [hx] at h; exact absurd h (by simp)
    rw [hx] at h
    injection h with h
    subst h
    by_cases hc : (step cfg t s).next + cfg.sectionOverlap < t.length
    · obtain ⟨hrne, hrhead, _, hrcov⟩ := ih (step cfg t s).next (step cfg t s).secEnd r heL hc hx
      refine ⟨by simp, by simpa using ha1, by intro h0; simpa using ha0 h0, ?_⟩
      intro o hoa hol
      simp only [List.getD_cons_zero] at hoa
      by_cases hoe : o < (step cfg t s).secEnd
      · exact ⟨_, List.mem_cons_self _ _, by simpa using hoa, hoe⟩
      · push_neg at hoe
        have hE1 : 1 ≤ (step cfg t s).secEnd := by
          rcases helow with hE | hE <;> omega
        have hhr : (r.getD 0 dSec).secStart ≤ o := by omega
        obtain ⟨w, hwr, hw1, hw2⟩ := hrcov o hhr hol
        exact ⟨w, List.mem_cons_of_mem _ hwr, hw1, hw2⟩
    · rw [aux_exit cfg pm t f _ _ hc] at hx
      by_cases hfin : (step cfg t s).next + cfg.sectionOverlap < (step cfg t s).secEnd
      · omega
      · rw [if_neg hfin] at hx
        injection hx with hx
        have hE : (step cfg t s).secEnd = t.length := by omega
        refine ⟨by simp, by simpa using ha1, by intro h0; simpa using ha0 h0, ?_⟩
        intro o hoa hol
        simp only [List.getD_cons_zero] at hoa
        refine ⟨_, List.mem_cons_self _ _, by simpa using hoa, ?_⟩
        show o < (step cfg t s).secEnd
        omega

/-- The configuration MAX=10, SENTENCE_SEARCH_LIMIT=1, OVERLAP=2 used in the
non-termination scenario; note 10 > 2, so forward progress is supposedly
guaranteed. -/
def cfgLoop : SplitCfg := ⟨10, 1, 2⟩

/-- Single page whose text is "aaaaaaaaaa<table" (16 characters). -/
def pmLoop : List PageEntry := [⟨0, 0, "aaaaaaaaaa<table".toList⟩]

/-- Configuration of the worked scenario of the specification. -/
def cfgC6 : SplitCfg := ⟨20, 5, 5⟩

/-- Single page "Alpha beta. Gamma delta epsilon zeta." (37 characters). -/
def pmC6 : List PageEntry := [⟨0, 0, "Alpha beta. Gamma delta epsilon zeta.".toList⟩]

/-- The sections the engine actually emits in the worked scenario. -/
def secsC6 : List Sec := [⟨0, 0, 24, 0⟩, ⟨19, 11, 37, 0⟩]

/-- Configuration of the degenerate scenario of the specification. -/
def cfgC7 : SplitCfg := ⟨10, 3, 2⟩

/-- Single page of thirty letters a. -/
def pmC7 : List PageEntry := [⟨0, 0, List.replicate 30 'a'⟩]

/-- The sections the engine actually emits in the degenerate scenario. -/
def secsC7 : List Sec := [⟨0, 0, 14, 0⟩, ⟨12, 11, 26, 0⟩, ⟨24, 15, 30, 0⟩]

/-- A valid single-page map whose text "hi" is shorter than the default
SECTION_OVERLAP. -/
def pmHi : List PageEntry := [⟨0, 0, "hi".toList⟩]

/-- A page map with decreasing, non-contiguous start offsets. -/
def pmBad : List PageEntry := [⟨0, 7, List.replicate 10 'a'⟩, ⟨1, 0, List.replicate 10 'b'⟩]

/-- The sections the engine emits on pmBad under cfgLoop. -/
def secsBad : List Sec := [⟨0, 0, 12, 1⟩, ⟨10, 9, 20, 1⟩]

/-- Single page of ten letters a. -/
def pmAs : List PageEntry := [⟨0, 0, List.replicate 10 'a'⟩]

/-- A two-page map satisfying the PageEntry invariant. -/
def pmPages : List PageEntry := [⟨0, 0, "ab".toList⟩, ⟨1, 2, "cde".toList⟩]

/-- A page map with invalid offsets whose concatenated text equals the one
of pmHi rewritten as two pages "a" and "b". -/
def pmW2 : List PageEntry := [⟨0, 5, "h".toList⟩, ⟨3, 0, "i".toList⟩]

/-- Claim C1 (amended): whenever the loop of split_text terminates, and the
concatenated text is longer than sectionOverlap ≥ 1, the emitted windows
cover every offset of the text. -/
theorem claim_C1_coverage_amended (cfg : SplitCfg) (pm : List PageEntry) (f : Nat) (L : List Sec)
    (hOV1 : 1 ≤ cfg.sectionOverlap) (_hOVM : cfg.sectionOverlap < cfg.maxSectionLength)
    (hlen : cfg.sectionOverlap < (allText pm).length)
    (h : splitTextAux cfg pm (allText pm) f 0 (allText pm).length = some L) :
    covers L (allText pm).length := by
  obtain ⟨hne, hh1, hh0, hcov⟩ :=
    cover_aux cfg pm (allText pm) hOV1 hlen f 0 (allText pm).length L (le_refl _) (by omega) h
  intro o ho
  have h0 := hh0 rfl
  exact hcov o (by omega) ho

/-- Witness for claim C1 (amended) at a concrete input: ten letters a with
maxSectionLength 10, searchLimit 1, overlap 2 give the single window
[0, 10) and full coverage. -/
theorem claim_C1_coverage_amended_witness :
    1 ≤ cfgLoop.sectionOverlap ∧ cfgLoop.sectionOverlap < cfgLoop.maxSectionLength ∧
    cfgLoop.sectionOverlap < (allText pmAs).length ∧
    splitTextAux cfgLoop pmAs (allText pmAs) 2 0 (allText pmAs).length = some [⟨0, 0, 10, 0⟩] ∧
    covers [⟨0, 0, 10, 0⟩] (allText pmAs).length :=
  ⟨by decide, by decide, by decide, by decide,
    claim_C1_coverage_amended cfgLoop pmAs 2 [⟨0, 0, 10, 0⟩]
      (by decide) (by decide) (by decide) (by decide)⟩

/-- Claim C1 (counterexample): with the source constants, the valid
non-empty page map ["hi"] makes split_text emit no sections at all, so no
run of the engine covers offset 0. -/
theorem claim_C1_coverage_counterexample :
    PageMapInv pmHi ∧ 0 < (allText pmHi).length ∧
    ¬ ∃ (f : Nat) (L : List Sec),
        splitTextAux defaultCfg pmHi (allText pmHi) f 0 (allText pmHi).length = some L ∧
        covers L (allText pmHi).length := by
  refine ⟨by decide, by decide, ?_⟩
  rintro ⟨f, L, hL, hcov⟩
  have hexit : splitTextAux defaultCfg pmHi (allText pmHi) f 0 (allText pmHi).length =
      some [] := by
    rw [aux_exit defaultCfg pmHi (allText pmHi) f 0 (allText pmHi).length (by decide),
      if_neg (by decide : ¬ (0 + defaultCfg.sectionOverlap < (allText pmHi).length))]
  rw [hL] at hexit
  injection hexit with hexit
  subst hexit
  obtain ⟨w, hw, _, _⟩ := hcov 0 (by decide)
  exact absurd hw (by simp)

/-- Claim C3 (the code diverges): with maxSectionLength 10 greater than
sectionOverlap 2 and the single-page text "aaaaaaaaaa<table", the
split_text loop does not terminate for any amount of fuel: the cursor
reaches 10 and the table-continuity rule resets it to 10 forever. -/
theorem claim_C3_nontermination :
    ∀ f : Nat, splitTextAux cfgLoop pmLoop (allText pmLoop) f 0 (allText pmLoop).length = none := by
  have hc0 : (0 : Nat) + cfgLoop.sectionOverlap < (allText pmLoop).length := by decide
  have hc10 : (10 : Nat) + cfgLoop.sectionOverlap < (allText pmLoop).length := by decide
  have hs0 : step cfgLoop (allText pmLoop) 0 = ⟨0, 12, 10⟩ := by decide
  have hs10 : step cfgLoop (allText pmLoop) 10 = ⟨5, 16, 10⟩ := by decide
  have key : ∀ f, splitTextAux cfgLoop pmLoop (allText pmLoop) f 10 16 = none := by
    intro f
    induction f with
    | zero => rw [splitTextAux, if_pos hc10]
    | succ f ihf =>
      rw [aux_step cfgLoop pmLoop (allText pmLoop) f 10 16 hc10, hs10]
      show (splitTextAux cfgLoop pmLoop (allText pmLoop) f 10 16).map _ = none
      rw [ihf]
      rfl
  have key12 : ∀ f, splitTextAux cfgLoop pmLoop (allText pmLoop) f 10 12 = none := by
    intro f
    cases f with
    | zero => rw [splitTextAux, if_pos hc10]
    | succ f =>
      rw [aux_step cfgLoop pmLoop (allText pmLoop) f 10 12 hc10, hs10]
      show (splitTextAux cfgLoop pmLoop (allText pmLoop) f 10 16).map _ = none
      rw [key f]
      rfl
  intro f
  cases f with
  | zero => rw [splitTextAux, if_pos hc0]
  | succ f =>
    rw [aux_step cfgLoop pmLoop (allText pmLoop) f 0 (allText pmLoop).length hc0, hs0]
    show (splitTextAux cfgLoop pmLoop (allText pmLoop) f 10 12).map _ = none
    rw [key12 f]
    rfl

theorem aux_det (cfg : SplitCfg) (pm : List PageEntry) (t : List Char)
    {f f' s e : Nat} {L L' : List Sec}
    (h : splitTextAux cfg pm t f s e = some L)
    (h' : splitTextAux cfg pm t f' s e = some L') : L = L' := by
  rcases le_total f f' with hle | hle
  · have hup := aux_mono_le cfg pm t hle h
    rw [hup] at h'
    injection h'
  · have hup := aux_mono_le cfg pm t hle h'
    rw [hup] at h
    injection h with h
    exact h.symm

theorem getD_mem : ∀ {L : List Sec} {k : Nat}, k < L.length → L.getD k dSec ∈ L := by
  intro L
  induction L with
  | nil => intro k hk; simp at hk
  | cons x r ih =>
    intro k hk
    cases k with
    | zero => simp
    | succ k =>
      simp only [List.getD_cons_succ]
      exact List.mem_cons_of_mem _ (ih (by simpa using hk))

/-- The page-free observable of an emitted section: cursor and window. -/
def window (w : Sec) : Nat × Nat × Nat := (w.cur, w.secStart, w.secEnd)

theorem aux_window_eq (cfg : SplitCfg) (pm pm' : List PageEntry) (t : List Char) :
    ∀ (f s e : Nat),
      (splitTextAux cfg pm t f s e).map (List.map window) =
      (splitTextAux cfg pm' t f s e).map (List.map window) := by
  intro f
  induction f with
  | zero =>
    intro s e
    by_cases hc : s + cfg.sectionOverlap < t.length
    · simp only [splitTextAux, if_pos hc]
    · rw [aux_exit cfg pm t 0 s e hc, aux_exit cfg pm' t 0 s e hc]
      split <;> simp [window]
  | succ f ih =>
    intro s e
    by_cases hc : s + cfg.sectionOverlap < t.length
    · rw [aux_step cfg pm t f s e hc, aux_step cfg pm' t f s e hc]
      have hih := ih (step cfg t s).next (step cfg t s).secEnd
      rcases h1 : splitTextAux cfg pm t f (step cfg t s).next (step cfg t s).secEnd with _ | r <;>
        rcases h2 : splitTextAux cfg pm' t f (step cfg t s).next (step cfg t s).secEnd with _ | r'
      · simp
      · rw [h1, h2] at hih; simp at hih
      · rw [h1, h2] at hih; simp at hih
      · rw [h1, h2] at hih
        simp only [Option.map_some'] at hih ⊢
        injection hih with hih
        simp [window, hih]
    · rw [aux_exit cfg pm t (f + 1) s e hc, aux_exit cfg pm' t (f + 1) s e hc]
      split <;> simp [window]

/-- Claim C2 (counterexample): a page map whose start offsets are not
strictly increasing (and not contiguous) is not rejected: split_text
processes it and yields two sections. -/
theorem claim_C2_validation_counterexample :
    ¬ (∀ i < pmBad.length - 1, offAt pmBad i < offAt pmBad (i + 1)) ∧
    splitTextAux cfgLoop pmBad (allText pmBad) 3 0 (allText pmBad).length = some secsBad ∧
    secsBad ≠ [] := by decide

/-- Claim C2 (amended): the engine performs no input validation: for any
two page maps with the same concatenated text — whatever their offsets —
every run emits exactly the same cursor/window trace; offsets influence
page attribution only. -/
theorem claim_C2_no_validation_amended (cfg : SplitCfg) (pm pm' : List PageEntry)
    (f s e : Nat) (h : allText pm = allText pm') :
    (splitTextAux cfg pm (allText pm) f s e).map (List.map window) =
    (splitTextAux cfg pm' (allText pm') f s e).map (List.map window) := by
  rw [← h]
  exact aux_window_eq cfg pm pm' (allText pm) f s e

/-- Witness for claim C2 (amended): the valid map ["hi"] and an invalid
two-page map with decreasing offsets but the same concatenated text "hi"
produce the same windows. -/
theorem claim_C2_no_validation_amended_witness :
    allText pmHi = allText pmW2 ∧
    (splitTextAux defaultCfg pmHi (allText pmHi) 1 0 2).map (List.map window) =
    (splitTextAux defaultCfg pmW2 (allText pmW2) 1 0 2).map (List.map window) :=
  ⟨by decide, claim_C2_no_validation_amended defaultCfg pmHi pmW2 1 0 2 (by decide)⟩

/-- The cursor update rule of the table-continuity check, as specified:
when the emitted text has a last "<table" occurrence beyond
2 * sentenceSearchLimit with no later "</table", the next cursor is
min(end - sectionOverlap, start + tableOpenIdx); otherwise it is
end - sectionOverlap. -/
def cursorRule (cfg : SplitCfg) (t : List Char) (x y : Sec) : Prop :=
  y.cur =
    if tableContinuation cfg (sectionText t x.secStart x.secEnd) then
      min (x.secEnd - cfg.sectionOverlap)
        (x.secStart + (rfind (sectionText t x.secStart x.secEnd) TABLE_OPEN).toNat)
    else x.secEnd - cfg.sectionOverlap

instance (cfg : SplitCfg) (t : List Char) (x y : Sec) : Decidable (cursorRule cfg t x y) := by
  unfold cursorRule; infer_instance

/-- Claim C4: in every run, each consecutive pair of emitted sections obeys
the table-continuity cursor rule. -/
theorem claim_C4_cursor_rule (cfg : SplitCfg) (pm : List PageEntry) (f k : Nat) (L : List Sec)
    (h : splitTextAux cfg pm (allText pm) f 0 (allText pm).length = some L)
    (hk : k + 1 < L.length) :
    cursorRule cfg (allText pm) (L.getD k dSec) (L.getD (k + 1) dSec) := by
  have hch := chain_of_aux cfg pm (allText pm) f 0 (allText pm).length L (le_refl _) h
  obtain ⟨hc, hstart, hend, hnext⟩ := chain_consec cfg (allText pm) L 0 k hch hk
  unfold cursorRule
  rw [hnext, step_next_eq, hstart, hend, step_secStart, step_secEnd]

/-- Witness for claim C4 at a concrete run (rule fires in its else branch:
next cursor 10 equals end 12 minus overlap 2). -/
theorem claim_C4_cursor_rule_witness :
    splitTextAux cfgLoop pmBad (allText pmBad) 3 0 (allText pmBad).length = some secsBad ∧
    cursorRule cfgLoop (allText pmBad) (secsBad.getD 0 dSec) (secsBad.getD 1 dSec) :=
  ⟨by decide, claim_C4_cursor_rule cfgLoop pmBad 3 0 secsBad (by decide) (by decide)⟩

/-- Claim C6 (counterexample): in the worked scenario no terminating run
has its first section end at 11 and its second section start at 6. -/
theorem claim_C6_scenario_counterexample :
    ¬ ∃ (f : Nat) (L : List Sec),
        splitTextAux cfgC6 pmC6 (allText pmC6) f 0 (allText pmC6).length = some L ∧
        (L.getD 0 dSec).secEnd = 11 ∧ (L.getD 1 dSec).secStart = 6 := by
  rintro ⟨f, L, hL, h11, _⟩
  have hL6 : splitTextAux cfgC6 pmC6 (allText pmC6) 3 0 (allText pmC6).length = some secsC6 := by
    decide
  have hEq : L = secsC6 := aux_det cfgC6 pmC6 (allText pmC6) hL hL6
  subst hEq
  exact absurd h11 (by decide)

/-- Claim C6 (amended): the worked scenario emits exactly the windows
[0, 24) and [11, 37): the first section ends at 24 (the forward scan finds
no sentence ending within the limit and falls back to the word break at 23,
included by the boundary step), the second starts at 11 (the backward scan
stops right after the sentence ending at 10); the sections cover the text
and the last section ends at the text length. -/
theorem claim_C6_scenario_amended :
    splitTextAux cfgC6 pmC6 (allText pmC6) 3 0 (allText pmC6).length = some secsC6 ∧
    covers secsC6 (allText pmC6).length ∧
    (secsC6.getD 0 dSec).secEnd = 24 ∧ (secsC6.getD 1 dSec).secStart = 11 ∧
    (secsC6.getD 1 dSec).secEnd = (allText pmC6).length := by decide

/-- Claim C7 (counterexample): in the degenerate scenario no terminating
run consists of windows of length exactly 10. -/
theorem claim_C7_degenerate_counterexample :
    ¬ ∃ (f : Nat) (L : List Sec),
        splitTextAux cfgC7 pmC7 (allText pmC7) f 0 (allText pmC7).length = some L ∧
        ∀ w ∈ L, w.secEnd - w.secStart = 10 := by
  rintro ⟨f, L, hL, hall⟩
  have hL7 : splitTextAux cfgC7 pmC7 (allText pmC7) 4 0 (allText pmC7).length = some secsC7 := by
    decide
  have hEq : L = secsC7 := aux_det cfgC7 pmC7 (allText pmC7) hL hL7
  subst hEq
  have h14 := hall ⟨0, 0, 14, 0⟩ (by decide)
  exact absurd h14 (by decide)

/-- Claim C5 (counterexample): in the worked scenario (no table markup at
all, so the table rule never fires) the second section starts 13
characters before the first section end, not exactly sectionOverlap = 5:
the backward start scan repositions the emitted start independently of the
cursor. -/
theorem claim_C5_overlap_counterexample :
    ¬ ∃ (f : Nat) (L : List Sec),
        splitTextAux cfgC6 pmC6 (allText pmC6) f 0 (allText pmC6).length = some L ∧
        ∀ k, k + 1 < L.length →
          (L.getD k dSec).secEnd ≤ (L.getD (k + 1) dSec).secStart + cfgC6.maxSectionLength ∧
          (¬ tableContinuation cfgC6
              (sectionText (allText pmC6) (L.getD k dSec).secStart (L.getD k dSec).secEnd) →
            (L.getD (k + 1) dSec).secStart =
              (L.getD k dSec).secEnd - cfgC6.sectionOverlap) := by
  rintro ⟨f, L, hL, hall⟩
  have hL6 : splitTextAux cfgC6 pmC6 (allText pmC6) 3 0 (allText pmC6).length = some secsC6 := by
    decide
  have hEq : L = secsC6 := aux_det cfgC6 pmC6 (allText pmC6) hL hL6
  subst hEq
  have h0 := (hall 0 (by decide)).2 (by decide)
  exact absurd h0 (by decide)

/-- Claim C5 (amended): consecutive sections obey the weaker bound
end(k) ≤ start(k+1) + maxSectionLength + 2 * sentenceSearchLimit; the
quantity that is exactly sectionOverlap before end(k) barring the table
rule is the next iteration cursor, from which the emitted start may then
be moved (it always stays at most cursor + 1). -/
theorem claim_C5_overlap_amended (cfg : SplitCfg) (pm : List PageEntry) (f k : Nat)
    (L : List Sec) (hOV : cfg.sectionOverlap ≤ cfg.maxSectionLength)
    (h : splitTextAux cfg pm (allText pm) f 0 (allText pm).length = some L)
    (hk : k + 1 < L.length) :
    (L.getD k dSec).secEnd ≤
      (L.getD (k + 1) dSec).secStart + cfg.maxSectionLength + 2 * cfg.sentenceSearchLimit ∧
    (L.getD (k + 1) dSec).secStart ≤ (L.getD (k + 1) dSec).cur + 1 ∧
    (¬ tableContinuation cfg
        (sectionText (allText pm) (L.getD k dSec).secStart (L.getD k dSec).secEnd) →
      (L.getD (k + 1) dSec).cur = (L.getD k dSec).secEnd - cfg.sectionOverlap) := by
  have hch := chain_of_aux cfg pm (allText pm) f 0 (allText pm).length L (le_refl _) h
  obtain ⟨hc, hxs, hxe, hynext⟩ := chain_consec cfg (allText pm) L 0 k hch hk
  have hymem : L.getD (k + 1) dSec ∈ L := getD_mem hk
  obtain ⟨hyc, hys, hye⟩ := chain_all cfg (allText pm) L 0 hch _ hymem
  set t := allText pm
  set x := L.getD k dSec
  set y := L.getD (k + 1) dSec
  have hysf : y.secStart = findStart cfg t (findEnd cfg t y.cur) y.cur := by
    rw [hys, step_secStart]
  have h1 : y.secStart ≤ y.cur + 1 := by
    rw [hysf]; exact findStart_le cfg t _ y.cur
  have h2 := findStart_ge cfg t (findEnd cfg t y.cur) y.cur
  rw [← hysf] at h2
  have h3 : x.secEnd - cfg.maxSectionLength ≤ y.cur := by
    rw [hynext, hxe]
    exact step_next_ge cfg t x.cur hOV
  have h4 : x.secEnd ≤ t.length := by
    rw [hxe, step_secEnd]; exact findEnd_le_len cfg t x.cur
  have h5 := findEnd_lower cfg t y.cur
  refine ⟨?_, h1, ?_⟩
  · rcases h2 with ha | ha
    · omega
    · rcases h5 with hb | hb <;> omega
  · intro hnt
    have hnt' : ¬ tableContinuation cfg
        (sectionText t (findStart cfg t (findEnd cfg t x.cur) x.cur) (findEnd cfg t x.cur)) := by
      rw [hxs, step_secStart, hxe, step_secEnd] at hnt
      exact hnt
    rw [hynext, step_next_eq, if_neg hnt', hxe, step_secEnd]

/-- Witness for claim C5 (amended) at the worked scenario, pair k = 0. -/
theorem claim_C5_overlap_amended_witness :
    cfgC6.sectionOverlap ≤ cfgC6.maxSectionLength ∧
    splitTextAux cfgC6 pmC6 (allText pmC6) 3 0 (allText pmC6).length = some secsC6 ∧
    ((secsC6.getD 0 dSec).secEnd ≤
        (secsC6.getD 1 dSec).secStart + cfgC6.maxSectionLength +
          2 * cfgC6.sentenceSearchLimit ∧
      (secsC6.getD 1 dSec).secStart ≤ (secsC6.getD 1 dSec).cur + 1 ∧
      (¬ tableContinuation cfgC6
          (sectionText (allText pmC6) (secsC6.getD 0 dSec).secStart
            (secsC6.getD 0 dSec).secEnd) →
        (secsC6.getD 1 dSec).cur = (secsC6.getD 0 dSec).secEnd - cfgC6.sectionOverlap)) :=
  ⟨by decide, by decide,
    claim_C5_overlap_amended cfgC6 pmC6 3 0 secsC6 (by decide) (by decide) (by decide)⟩

theorem drop_getD (pm : List PageEntry) :
    ∀ i : Nat, (pm.drop i).getD 0 defaultEntry = pm.getD i defaultEntry := by
  induction pm with
  | nil =>
    intro i
    rw [List.drop_nil]
    cases i <;> rfl
  | cons p rest ih =>
    intro i
    cases i with
    | zero => simp
    | succ i => simpa using ih i

theorem offAt_mono (pm : List PageEntry) (hinv : PageMapInv pm) :
    ∀ j, j < pm.length → ∀ i, i ≤ j → offAt pm i ≤ offAt pm j := by
  obtain ⟨hne, h0, hcont, hmono⟩ := hinv
  intro j
  induction j with
  | zero =>
    intro _ i hi
    have : i = 0 := by omega
    subst this
    exact le_refl _
  | succ j ih =>
    intro hj i hi
    rcases Nat.lt_or_ge i (j + 1) with h | h
    · have h1 : offAt pm i ≤ offAt pm j := ih (by omega) i (by omega)
      have h2 : offAt pm j < offAt pm (j + 1) := hmono j (by omega)
      omega
    · have : i = j + 1 := by omega
      subst this
      exact le_refl _

theorem findPageAux_spec (pm : List PageEntry) (o : Nat) :
    ∀ (l : List PageEntry) (i : Nat), l = pm.drop i → i < pm.length → offAt pm i ≤ o →
      i ≤ findPageAux o l i ∧ findPageAux o l i < pm.length ∧
      offAt pm (findPageAux o l i) ≤ o ∧
      (findPageAux o l i + 1 < pm.length → o < offAt pm (findPageAux o l i + 1)) := by
  intro l
  induction l with
  | nil =>
    intro i hL hi _
    exfalso
    have hlen := congrArg List.length hL
    rw [List.length_drop] at hlen
    simp at hlen
    omega
  | cons p1 rest ih =>
    intro i hL hi hoff
    have hlen : pm.length - i = rest.length + 1 := by
      have h := congrArg List.length hL
      rw [List.length_drop, List.length_cons] at h
      omega
    have hp1 : p1.startOffset = offAt pm i := by
      have h := drop_getD pm i
      rw [← hL, List.getD_cons_zero] at h
      rw [offAt, ← h]
    cases rest with
    | nil =>
      rw [findPageAux]
      refine ⟨le_refl _, hi, hoff, ?_⟩
      intro hcontra
      simp only [List.length_nil] at hlen
      omega
    | cons p2 rest' =>
      simp only [List.length_cons] at hlen
      have hdrop1 : p2 :: rest' = pm.drop (i + 1) := by
        have h := congrArg List.tail hL
        simpa [List.tail_drop] using h
      have hp2 : p2.startOffset = offAt pm (i + 1) := by
        have h := drop_getD pm (i + 1)
        rw [← hdrop1, List.getD_cons_zero] at h
        rw [offAt, ← h]
      have hi1 : i + 1 < pm.length := by omega
      rw [findPageAux]
      split
      · rename_i hcase
        refine ⟨le_refl _, hi, hoff, ?_⟩
        intro _
        rw [← hp2]
        exact hcase.2
      · rename_i hcase
        have hge : offAt pm (i + 1) ≤ o := by
          rw [← hp2]
          rcases Nat.lt_or_ge o p2.startOffset with hlt | hge2
          · exact absurd ⟨by omega, hlt⟩ hcase
          · exact hge2
        obtain ⟨ha, hb, hc, hd⟩ := ih (i + 1) hdrop1 hi1 hge
        exact ⟨by omega, hb, hc, hd⟩

/-- Claim C8: for a page map satisfying the PageEntry invariant and any
offset up to the text length, find_page returns the largest page index
whose start offset is at most the offset; for interior offsets this is the
unique enclosing interval, and past the last start offset it is the last
page. -/
theorem claim_C8_find_page (pm : List PageEntry) (o : Nat) (hinv : PageMapInv pm)
    (_ho : o ≤ (allText pm).length) :
    find_page pm o < pm.length ∧ offAt pm (find_page pm o) ≤ o ∧
    (∀ j < pm.length, offAt pm j ≤ o → j ≤ find_page pm o) ∧
    (find_page pm o + 1 < pm.length → o < offAt pm (find_page pm o + 1)) := by
  have hne : pm ≠ [] := hinv.1
  have hlen0 : 0 < pm.length := List.length_pos.mpr hne
  have h00 : offAt pm 0 = 0 := hinv.2.1
  obtain ⟨ha, hb, hc, hd⟩ := findPageAux_spec pm o pm 0 (by rw [List.drop_zero]) hlen0 (by omega)
  rw [find_page]
  refine ⟨hb, hc, ?_, hd⟩
  intro j hj hoffj
  by_contra hgt
  push_neg at hgt
  have h1 : findPageAux o pm 0 + 1 < pm.length := by omega
  have h2 : o < offAt pm (findPageAux o pm 0 + 1) := hd h1
  have h3 : offAt pm (findPageAux o pm 0 + 1) ≤ offAt pm j :=
    offAt_mono pm hinv j hj _ (by omega)
  omega

/-- Witness for claim C8 at a two-page map with offset 3 inside the second
page. -/
theorem claim_C8_find_page_witness :
    PageMapInv pmPages ∧ 3 ≤ (allText pmPages).length ∧ find_page pmPages 3 = 1 ∧
    (find_page pmPages 3 < pmPages.length ∧ offAt pmPages (find_page pmPages 3) ≤ 3 ∧
      (∀ j < pmPages.length, offAt pmPages j ≤ 3 → j ≤ find_page pmPages 3) ∧
      (find_page pmPages 3 + 1 < pmPages.length → 3 < offAt pmPages (find_page pmPages 3 + 1))) :=
  ⟨by decide, by decide, by decide, claim_C8_find_page pmPages 3 (by decide) (by decide)⟩

/-- Claim C9: in every run, each emitted section end lies at most
maxSectionLength + sentenceSearchLimit + 1 past its cursor (the forward
scan never looks further than sentenceSearchLimit past the nominal cut),
and each section text has length at most
maxSectionLength + 2 * sentenceSearchLimit (for a positive search limit). -/
theorem claim_C9_bounded_search (cfg : SplitCfg) (pm : List PageEntry) (f : Nat)
    (L : List Sec) (hS : 1 ≤ cfg.sentenceSearchLimit)
    (h : splitTextAux cfg pm (allText pm) f 0 (allText pm).length = some L) :
    ∀ w ∈ L, w.secEnd ≤ w.cur + cfg.maxSectionLength + cfg.sentenceSearchLimit + 1 ∧
      w.secEnd - w.secStart ≤ cfg.maxSectionLength + 2 * cfg.sentenceSearchLimit := by
  intro w hw
  obtain ⟨hc, hs, he⟩ := chain_all cfg (allText pm) L 0
    (chain_of_aux cfg pm (allText pm) f 0 (allText pm).length L (le_refl _) h) w hw
  have h1 : findEnd cfg (allText pm) w.cur ≤
      w.cur + cfg.maxSectionLength + cfg.sentenceSearchLimit + 1 :=
    findEnd_upper cfg (allText pm) w.cur
  have h2 := findStart_ge cfg (allText pm) (findEnd cfg (allText pm) w.cur) w.cur
  constructor
  · rw [he, step_secEnd]; exact h1
  · rw [he, hs, step_secEnd, step_secStart]
    rcases h2 with ha | ha <;> omega

/-- Witness for claim C9 at a concrete run. -/
theorem claim_C9_bounded_search_witness :
    1 ≤ cfgLoop.sentenceSearchLimit ∧
    splitTextAux cfgLoop pmAs (allText pmAs) 2 0 (allText pmAs).length = some [⟨0, 0, 10, 0⟩] ∧
    (∀ w ∈ [(⟨0, 0, 10, 0⟩ : Sec)],
      w.secEnd ≤ w.cur + cfgLoop.maxSectionLength + cfgLoop.sentenceSearchLimit + 1 ∧
      w.secEnd - w.secStart ≤ cfgLoop.maxSectionLength + 2 * cfgLoop.sentenceSearchLimit) :=
  ⟨by decide, by decide,
    claim_C9_bounded_search cfgLoop pmAs 2 [⟨0, 0, 10, 0⟩] (by decide) (by decide)⟩

/-- Claim C10: in every run (overlap and maximum length positive, as in the
source constants), each emitted window satisfies start < end ≤ length and
the emitted section text is a non-empty substring. -/
theorem claim_C10_nonempty_sections (cfg : SplitCfg) (pm : List PageEntry) (f : Nat)
    (L : List Sec) (h1 : 1 ≤ cfg.sectionOverlap) (h2 : 1 ≤ cfg.maxSectionLength)
    (h : splitTextAux cfg pm (allText pm) f 0 (allText pm).length = some L) :
    ∀ w ∈ L, w.secStart < w.secEnd ∧ w.secEnd ≤ (allText pm).length ∧
      sectionText (allText pm) w.secStart w.secEnd ≠ [] := by
  intro w hw
  obtain ⟨hc, hs, he⟩ := chain_all cfg (allText pm) L 0
    (chain_of_aux cfg pm (allText pm) f 0 (allText pm).length L (le_refl _) h) w hw
  have hw1 : w.secStart < w.secEnd := by
    rw [hs, he]; exact step_window cfg (allText pm) w.cur h1 h2 hc
  have hw2 : w.secEnd ≤ (allText pm).length := by
    rw [he, step_secEnd]; exact findEnd_le_len cfg (allText pm) w.cur
  refine ⟨hw1, hw2, ?_⟩
  have hpos : 0 < (sectionText (allText pm) w.secStart w.secEnd).length := by
    simp only [sectionText, List.length_take, List.length_drop]
    exact lt_min (by omega) (by omega)
  exact List.length_pos.mp hpos

/-- Witness for claim C10 at a concrete run. -/
theorem claim_C10_nonempty_sections_witness :
    1 ≤ cfgLoop.sectionOverlap ∧ 1 ≤ cfgLoop.maxSectionLength ∧
    splitTextAux cfgLoop pmAs (allText pmAs) 2 0 (allText pmAs).length = some [⟨0, 0, 10, 0⟩] ∧
    (∀ w ∈ [(⟨0, 0, 10, 0⟩ : Sec)],
      w.secStart < w.secEnd ∧ w.secEnd ≤ (allText pmAs).length ∧
      sectionText (allText pmAs) w.secStart w.secEnd ≠ []) :=
  ⟨by decide, by decide, by decide,
    claim_C10_nonempty_sections cfgLoop pmAs 2 [⟨0, 0, 10, 0⟩] (by decide) (by decide) (by decide)⟩

/-- Claim C7 (amended): the degenerate scenario terminates; with no
sentence ending or word break anywhere both boundary rules fail and the
hard cut falls at maxSectionLength + sentenceSearchLimit + 1 = 14
characters past the cursor, the emitted windows being [0, 14), [11, 26)
and [15, 30), which cover the text. -/
theorem claim_C7_degenerate_amended :
    splitTextAux cfgC7 pmC7 (allText pmC7) 4 0 (allText pmC7).length = some secsC7 ∧
    covers secsC7 (allText pmC7).length ∧
    (secsC7.getD 0 dSec).secEnd =
      cfgC7.maxSectionLength + cfgC7.sentenceSearchLimit + 1 := by decide

end PrepDocs
